import Mathlib

/-!
Verification of the compact IRI library (package `iri`): a colon-delimited
segment-sequence value type with prefix/suffix/parent/heir navigation,
structural equality and JSON (de)serialization.

Strings are modelled as lists of characters (`Str`); Go's
`strings.Split(s, ":")` and `strings.Join(ss, ":")` are embedded as
`splitOnColon` and `joinColon`.  Go's variadic `rank ...int` parameter is a
list of integers whose head (default `1`) is the rank.  Go slice
expressions `xs[:n]` and `xs[n:]` panic when the bound is out of range;
they are embedded as `Option`-valued `goSliceTo` / `goSliceFrom`, so
operations that can panic return `Option` values (`none` = panic).
-/

/-- Strings as lists of characters. -/
abbrev Str := List Char

/-- Go `strings.Split(s, ":")`: split on every colon; the empty string
yields one empty segment. -/
def splitOnColon : Str → List Str
  | [] => [[]]
  | c :: cs =>
    if c = ':' then [] :: splitOnColon cs
    else
      match splitOnColon cs with
      | [] => [[c]]
      | s :: ss => (c :: s) :: ss

/-- Go `strings.Join(ss, ":")`: interleave a colon between segments. -/
def joinColon : List Str → Str
  | [] => []
  | [s] => s
  | s :: ss => s ++ ':' :: joinColon ss

/-- Splitting never returns an empty list of segments. -/
theorem splitOnColon_ne_nil (s : Str) : splitOnColon s ≠ [] := by
  cases s with
  | nil => simp [splitOnColon]
  | cons c cs =>
    simp only [splitOnColon]
    split
    · simp
    · split <;> simp

/-- Join after split is the identity: the split/join round-trip law. -/
theorem joinColon_splitOnColon (s : Str) : joinColon (splitOnColon s) = s := by
  induction s with
  | nil => rfl
  | cons c cs ih =>
    simp only [splitOnColon]
    split
    · rename_i hc
      subst hc
      rcases h : splitOnColon cs with - | ⟨t, ts⟩
      · exact absurd h (splitOnColon_ne_nil cs)
      · rw [h] at ih
        simp [joinColon, ih]
    · rcases h : splitOnColon cs with - | ⟨t, ts⟩
      · exact absurd h (splitOnColon_ne_nil cs)
      · rw [h] at ih
        cases ts with
        | nil => simpa [joinColon] using congrArg (c :: ·) ih
        | cons u us =>
          simp only [joinColon] at ih ⊢
          simp [ih]

/-- Every segment produced by `strings.Split` on the colon is colon-free. -/
theorem splitOnColon_no_colon (s : Str) :
    ∀ seg ∈ splitOnColon s, ':' ∉ seg := by
  induction s with
  | nil => simp [splitOnColon]
  | cons c cs ih =>
    simp only [splitOnColon]
    split
    · intro seg hseg
      rcases List.mem_cons.mp hseg with hseg | hseg
      · simp [hseg]
      · exact ih seg hseg
    · rename_i hc
      rcases h : splitOnColon cs with - | ⟨t, ts⟩
      · exact absurd h (splitOnColon_ne_nil cs)
      · rw [h] at ih
        intro seg hseg
        rcases List.mem_cons.mp hseg with hseg | hseg
        · subst hseg
          intro hmem
          rcases List.mem_cons.mp hmem with h1 | h1
          · exact hc h1.symm
          · exact ih t (by simp) h1
        · exact ih seg (by simp [hseg])

/-- Go slice expression `xs[:n]` with an `int` bound: panics (`none`)
unless `0 ≤ n ≤ len(xs)`. -/
def goSliceTo (xs : List α) (n : Int) : Option (List α) :=
  if 0 ≤ n ∧ n ≤ (xs.length : Int) then some (xs.take n.toNat) else none

/-- Go slice expression `xs[n:]` with an `int` bound: panics (`none`)
unless `0 ≤ n ≤ len(xs)`. -/
def goSliceFrom (xs : List α) (n : Int) : Option (List α) :=
  if 0 ≤ n ∧ n ≤ (xs.length : Int) then some (xs.drop n.toNat) else none

/-- Compact is a compact (colon-delimited) representation of an IRI:
an ordered sequence of string segments. -/
structure Compact where
  Seq : List Str
deriving DecidableEq, Repr

/-- NewCompact builds a compact IRI from a string by splitting on `:`. -/
def NewCompact (iri : Str) : Compact :=
  ⟨splitOnColon iri⟩

/-- Compact.String joins the segments with `:` (canonical form). -/
def Compact.String (iri : Compact) : Str :=
  joinColon iri.Seq

/-- Compact.Prefix drops the last `rank` segments (default rank `1`)
and joins the rest with `:`; a single-segment sequence at rank `1` is
returned whole.  `none` models a Go slice-bounds panic. -/
def Compact.Prefix (iri : Compact) (rank : List Int) : Option Str :=
  let r := rank.headD 1
  if r = 1 ∧ iri.Seq.length = 1 then
    some (joinColon iri.Seq)
  else
    let n : Int := (iri.Seq.length : Int) - r
    if n < 0 then some []
    else (goSliceTo iri.Seq n).map joinColon

/-- Compact.Suffix joins the last `rank` segments (default rank `1`)
with `:`; a single-segment sequence always yields the empty string.
`none` models a Go slice-bounds panic. -/
def Compact.Suffix (iri : Compact) (rank : List Int) : Option Str :=
  let r := rank.headD 1
  if iri.Seq.length = 1 then
    some []
  else
    let n0 : Int := (iri.Seq.length : Int) - r
    let n := if n0 < 0 then 0 else n0
    (goSliceFrom iri.Seq n).map joinColon

/-- Compact.Parent is the ancestor at generational distance `rank`
(default `1`); at or above the root it is the root identity `[""]`.
`none` models a Go slice-bounds panic. -/
def Compact.Parent (iri : Compact) (rank : List Int) : Option Compact :=
  let r := rank.headD 1
  let n : Int := (iri.Seq.length : Int) - r
  if n ≤ 0 then some ⟨[[]]⟩
  else (goSliceTo iri.Seq n).map Compact.mk

/-- Compact.Heir appends one child segment; the root identity `[""]`
is absorbed rather than kept as a leading empty segment. -/
def Compact.Heir (iri : Compact) (segment : Str) : Compact :=
  if iri.Seq.length = 1 ∧ iri.Seq.headD [] = [] then
    ⟨[segment]⟩
  else
    ⟨iri.Seq ++ [segment]⟩

/-- Compact.Eq is structural equality — same length and identical
segments at every position. -/
def Compact.Eq (iri x : Compact) : Bool :=
  if iri.Seq.length ≠ x.Seq.length then false
  else (iri.Seq.zip x.Seq).all fun p => decide (p.1 = p.2)

/-- Compact.Segments returns the raw segment list. -/
def Compact.Segments (iri : Compact) : List Str :=
  iri.Seq

/-- The JSON values the codec boundary can carry.  The document codec
(`encoding/json`) is external to this library; the spec treats it as a
black box reached through a narrow string contract, so it is modelled as
an abstract value domain with a string case. -/
inductive Json where
  | str : Str → Json
  | num : Int → Json
  | boolean : Bool → Json
  | null : Json
deriving DecidableEq, Repr

/-- Modelled from the spec: the external document decoder's narrow
contract — decoding into a Go `string` succeeds exactly on a JSON string
and otherwise reports the decoder's own error. -/
def jsonUnmarshalString : Json → Except Json Str
  | .str s => .ok s
  | v => .error v

/-- IRI wraps a `Compact` identifier (field `ID`). -/
structure IRI where
  ID : Compact
deriving DecidableEq, Repr

/-- New parses a compact IRI string (no-format-argument case). -/
def New (iri : Str) : IRI :=
  ⟨NewCompact iri⟩

/-- Compact.MarshalJSON: a zero-segment sequence marshals as the JSON
string `""`; otherwise the canonical colon-joined form is marshalled. -/
def Compact.MarshalJSON (iri : Compact) : Json :=
  if iri.Seq.length = 0 then .str []
  else .str ( Compact.String iri)

/-- Compact.UnmarshalJSON on a pointer receiver, as a state transformer:
the pair is (new receiver state, error).  The receiver is reassigned to
`New(path).ID` only after the decoder succeeds. -/
def Compact.UnmarshalJSON (iri : Compact) (b : Json) : Compact × Option Json :=
  match jsonUnmarshalString b with
  | .error e => (iri, some e)
  | .ok path => ((New path).ID, none)

/-- Elementwise-equality loop on zipped lists of equal length decides
list equality. -/
theorem zip_all_decide_eq (xs : List Str) :
    ∀ ys : List Str, xs.length = ys.length →
      ((((xs.zip ys).all fun p => decide (p.1 = p.2)) = true) ↔ xs = ys) := by
  induction xs with
  | nil =>
    intro ys h
    cases ys with
    | nil => simp
    | cons y ys => simp at h
  | cons x xs ih =>
    intro ys h
    cases ys with
    | nil => simp at h
    | cons y ys =>
      simp only [List.length_cons, Nat.succ.injEq] at h
      simp [List.zip_cons_cons, List.all_cons, ih ys h, and_comm]

/-- Compact.Eq decides structural equality of identifiers. -/
theorem Compact.Eq_eq_true_iff (a b : Compact) : Compact.Eq a b = true ↔ a = b := by
  unfold Compact.Eq
  split
  · rename_i h
    simp only [Bool.false_eq_true, false_iff]
    intro hab
    exact h (by rw [hab])
  · rename_i h
    rw [not_not] at h
    rw [zip_all_decide_eq a.Seq b.Seq h]
    constructor
    · intro hseq
      cases a; cases b; simpa using hseq
    · intro hab
      rw [hab]

/-- The test string `"a:b:c:d:e"`. -/
def abcde : Str := ['a', ':', 'b', ':', 'c', ':', 'd', ':', 'e']

/-- C1: `Prefix(rank)` (default rank `1`, non-negative rank) returns the
whole single segment when `rank = 1` and there is exactly one segment,
the empty string when `len - rank < 0`, and otherwise the first
`len - rank` segments joined with `:`; with the spec's rank table for
`"a:b:c:d:e"` and the single-segment case `parse("a").Prefix(1) = "a"`. -/
theorem C1_Prefix_cases (iri : Compact) (r : Int) (hr : 0 ≤ r) :
    ( Compact.Prefix iri [] = Compact.Prefix iri [1]) ∧
    (r = 1 ∧ iri.Seq.length = 1 →
      Compact.Prefix iri [r] = some (joinColon iri.Seq)) ∧
    ((iri.Seq.length : Int) - r < 0 → Compact.Prefix iri [r] = some []) ∧
    (¬(r = 1 ∧ iri.Seq.length = 1) → 0 ≤ (iri.Seq.length : Int) - r →
      Compact.Prefix iri [r] =
        some (joinColon (iri.Seq.take ((iri.Seq.length : Int) - r).toNat))) ∧
    ( Compact.Prefix (NewCompact abcde) [] = some ['a', ':', 'b', ':', 'c', ':', 'd']) ∧
    ( Compact.Prefix (NewCompact abcde) [1] = some ['a', ':', 'b', ':', 'c', ':', 'd']) ∧
    ( Compact.Prefix (NewCompact abcde) [2] = some ['a', ':', 'b', ':', 'c']) ∧
    ( Compact.Prefix (NewCompact abcde) [3] = some ['a', ':', 'b']) ∧
    ( Compact.Prefix (NewCompact abcde) [4] = some ['a']) ∧
    ( Compact.Prefix (NewCompact abcde) [5] = some []) ∧
    ( Compact.Prefix (NewCompact ['a']) [1] = some ['a']) := by
  refine ⟨rfl, ?_, ?_, ?_, by decide, by decide, by decide, by decide, by decide,
    by decide, by decide⟩
  · intro h
    simp [ Compact.Prefix, h.1, h.2]
  · intro h
    have hnot : ¬((r = 1 ∧ iri.Seq.length = 1)) := by
      rintro ⟨rfl, hlen⟩
      rw [hlen] at h
      omega
    simp only [ Compact.Prefix, List.headD_cons, if_neg hnot]
    rw [if_pos h]
  · intro hnot hn
    simp only [ Compact.Prefix, List.headD_cons, if_neg hnot]
    rw [if_neg (by omega), goSliceTo, if_pos (by constructor <;> omega)]
    rfl

/-- Witness: C1 at `parse("a")`, rank `1` (single-segment exception) and at
`parse("a:b:c:d:e")`, rank `7` (negative `len - rank`). -/
theorem C1_Prefix_cases_witness :
    Compact.Prefix (NewCompact ['a']) [1] = some (joinColon (NewCompact ['a']).Seq) ∧
    Compact.Prefix (NewCompact abcde) [7] = some [] :=
  ⟨(C1_Prefix_cases (NewCompact ['a']) 1 (by decide)).2.1 (by decide),
   (C1_Prefix_cases (NewCompact abcde) 7 (by decide)).2.2.1 (by decide)⟩

/-- C2: `Suffix(rank)` (default rank `1`, non-negative rank) returns the
empty string on a single-segment sequence, and otherwise joins with `:`
the segments from index `len - rank` (clamped to `0`) on; with the
spec's rank table for `"a:b:c:d:e"`. -/
theorem C2_Suffix_cases (iri : Compact) (r : Int) (hr : 0 ≤ r) :
    ( Compact.Suffix iri [] = Compact.Suffix iri [1]) ∧
    (iri.Seq.length = 1 → Compact.Suffix iri [r] = some []) ∧
    (iri.Seq.length ≠ 1 →
      Compact.Suffix iri [r] =
        some (joinColon (iri.Seq.drop
          (if (iri.Seq.length : Int) - r < 0 then (0 : Int)
           else (iri.Seq.length : Int) - r).toNat))) ∧
    ( Compact.Suffix (NewCompact abcde) [] = some ['e']) ∧
    ( Compact.Suffix (NewCompact abcde) [1] = some ['e']) ∧
    ( Compact.Suffix (NewCompact abcde) [2] = some ['d', ':', 'e']) ∧
    ( Compact.Suffix (NewCompact abcde) [3] = some ['c', ':', 'd', ':', 'e']) ∧
    ( Compact.Suffix (NewCompact abcde) [4] = some ['b', ':', 'c', ':', 'd', ':', 'e']) ∧
    ( Compact.Suffix (NewCompact abcde) [5] = some abcde) := by
  refine ⟨rfl, ?_, ?_, by decide, by decide, by decide, by decide, by decide, by decide⟩
  · intro h
    simp [Compact.Suffix, h]
  · intro h
    simp only [Compact.Suffix, List.headD_cons, if_neg h]
    rw [goSliceFrom, if_pos (by constructor <;> split <;> omega)]
    rfl

/-- Witness: C2 at `parse("a")` (single segment) and `parse("a:b")`, rank `1`. -/
theorem C2_Suffix_cases_witness :
    Compact.Suffix (NewCompact ['a']) [1] = some [] ∧
    Compact.Suffix (NewCompact ['a', ':', 'b']) [1] =
      some (joinColon ((NewCompact ['a', ':', 'b']).Seq.drop
        (if ((NewCompact ['a', ':', 'b']).Seq.length : Int) - 1 < 0 then (0 : Int)
         else ((NewCompact ['a', ':', 'b']).Seq.length : Int) - 1).toNat)) :=
  ⟨(C2_Suffix_cases (NewCompact ['a']) 1 (by decide)).2.1 (by decide),
   (C2_Suffix_cases (NewCompact ['a', ':', 'b']) 1 (by decide)).2.2.1 (by decide)⟩

/-- C3: `Parent(rank)` (default rank `1`, non-negative rank) with
`n = len - rank` returns the root identity `[""]` when `n ≤ 0` and the
first `n` segments otherwise; in particular `Parent()` of the root
identity is the root identity. -/
theorem C3_Parent_cases (iri : Compact) (r : Int) (hr : 0 ≤ r) :
    ( Compact.Parent iri [] = Compact.Parent iri [1]) ∧
    ((iri.Seq.length : Int) - r ≤ 0 → Compact.Parent iri [r] = some ⟨[[]]⟩) ∧
    (0 < (iri.Seq.length : Int) - r →
      Compact.Parent iri [r] =
        some ⟨iri.Seq.take ((iri.Seq.length : Int) - r).toNat⟩) ∧
    ( Compact.Parent ⟨[[]]⟩ [] = some ⟨[[]]⟩) := by
  refine ⟨rfl, ?_, ?_, by decide⟩
  · intro h
    simp only [Compact.Parent, List.headD_cons]
    rw [if_pos h]
  · intro h
    simp only [Compact.Parent, List.headD_cons]
    rw [if_neg (by omega), goSliceTo, if_pos (by constructor <;> omega)]
    rfl

/-- Witness: C3 at `parse("a")` (root case) and `parse("a:b")` (copy case),
rank `1`. -/
theorem C3_Parent_cases_witness :
    Compact.Parent (NewCompact ['a']) [1] = some ⟨[[]]⟩ ∧
    Compact.Parent (NewCompact ['a', ':', 'b']) [1] =
      some ⟨(NewCompact ['a', ':', 'b']).Seq.take
        (((NewCompact ['a', ':', 'b']).Seq.length : Int) - 1).toNat⟩ :=
  ⟨(C3_Parent_cases (NewCompact ['a']) 1 (by decide)).2.1 (by decide),
   (C3_Parent_cases (NewCompact ['a', ':', 'b']) 1 (by decide)).2.2.1 (by decide)⟩

/-- Heir on the root identity replaces the empty root segment. -/
theorem Compact.Heir_root (s : Str) : Compact.Heir ⟨[[]]⟩ s = ⟨[s]⟩ := by
  simp [Compact.Heir]

/-- Heir away from the root identity appends the new segment. -/
theorem Compact.Heir_of_ne_root (x : Compact) (s : Str) (h : x ≠ ⟨[[]]⟩) :
    Compact.Heir x s = ⟨x.Seq ++ [s]⟩ := by
  unfold Compact.Heir
  rw [if_neg]
  rintro ⟨hl, hh⟩
  apply h
  obtain ⟨a, ha⟩ := List.length_eq_one.mp hl
  cases x with
  | mk seq =>
    simp only at ha
    subst ha
    simp only [List.headD_cons] at hh
    rw [hh]

/-- C4: split/join round-trip — `toString(parse(s)) = s` for every
string `s`, verified explicitly on `""`, `"a"`, `"a:b"`, `"a:b:c:d:e"`;
parsing the empty string yields `[""]`, and a parsed sequence is never
empty. -/
theorem C4_parse_toString_roundtrip :
    (∀ s : Str, Compact.String (NewCompact s) = s) ∧
    ( Compact.String (NewCompact []) = []) ∧
    ( Compact.String (NewCompact ['a']) = ['a']) ∧
    ( Compact.String (NewCompact ['a', ':', 'b']) = ['a', ':', 'b']) ∧
    ( Compact.String (NewCompact abcde) = abcde) ∧
    (NewCompact [] = ⟨[[]]⟩) ∧
    (∀ s : Str, (NewCompact s).Seq ≠ []) := by
  refine ⟨?_, by decide, by decide, by decide, by decide, rfl, ?_⟩
  · intro s
    exact joinColon_splitOnColon s
  · intro s
    exact splitOnColon_ne_nil s

/-- Witness: C4 on the concrete string `":x"`. -/
theorem C4_parse_toString_roundtrip_witness :
    Compact.String (NewCompact [':', 'x']) = [':', 'x'] :=
  C4_parse_toString_roundtrip.1 [':', 'x']

/-- C5: `Parent` undoes `Heir` — for an identifier with at least one
segment that is not the root identity, `x.Heir(s).Parent()` succeeds and
returns a value structurally `Eq` (and equal) to `x`. -/
theorem C5_parent_heir_inverse (x : Compact) (s : Str)
    (h1 : 1 ≤ x.Seq.length) (h2 : x ≠ ⟨[[]]⟩) :
    Compact.Parent ( Compact.Heir x s) [] = some x ∧
    ∀ y, Compact.Parent ( Compact.Heir x s) [] = some y → Compact.Eq y x = true := by
  have hmain : Compact.Parent ( Compact.Heir x s) [] = some x := by
    rw [Compact.Heir_of_ne_root x s h2]
    unfold Compact.Parent
    have hlen : (x.Seq ++ [s]).length = x.Seq.length + 1 := by simp
    simp only [List.headD_nil, hlen]
    rw [if_neg (by push_cast; omega), goSliceTo, hlen,
      if_pos (by constructor <;> (push_cast; omega))]
    simp only [Option.map_some', Option.some.injEq]
    have ht : ((((x.Seq.length + 1 : Nat) : Int) - 1)).toNat = x.Seq.length := by omega
    rw [ht, List.take_left]
  refine ⟨hmain, ?_⟩
  intro y hy
  rw [hmain] at hy
  cases hy
  exact (Compact.Eq_eq_true_iff x x).mpr rfl

/-- Witness: C5 at `x = parse("a:b")`, `s = "c"`. -/
theorem C5_parent_heir_inverse_witness :
    Compact.Parent ( Compact.Heir (NewCompact ['a', ':', 'b']) ['c']) [] =
      some (NewCompact ['a', ':', 'b']) :=
  (C5_parent_heir_inverse (NewCompact ['a', ':', 'b']) ['c']
    (by decide) (by decide)).1

/-- C6: `Heir(s)` replaces the root identity `[""]` by `[s]` and
otherwise appends `s` to a copy of the receiver's segments. -/
theorem C6_heir_cases (x : Compact) (s : Str) :
    (x = ⟨[[]]⟩ → Compact.Heir x s = ⟨[s]⟩) ∧
    (x ≠ ⟨[[]]⟩ → Compact.Heir x s = ⟨x.Seq ++ [s]⟩) := by
  constructor
  · rintro rfl
    exact Compact.Heir_root s
  · intro h
    exact Compact.Heir_of_ne_root x s h

/-- Witness: C6 on both branches — the root identity and `parse("a")`. -/
theorem C6_heir_cases_witness :
    Compact.Heir ⟨[[]]⟩ ['b'] = ⟨[['b']]⟩ ∧
    Compact.Heir (NewCompact ['a']) ['b'] = ⟨(NewCompact ['a']).Seq ++ [['b']]⟩ :=
  ⟨(C6_heir_cases ⟨[[]]⟩ ['b']).1 rfl,
   (C6_heir_cases (NewCompact ['a']) ['b']).2 (by decide)⟩

/-- Identifiers reachable from a parsed string by a finite chain of
(successful) `Parent` steps at any rank and `Heir` steps with arbitrary
string arguments. -/
inductive Reachable : Compact → Prop where
  | parse (s : Str) : Reachable (NewCompact s)
  | parent (x : Compact) (rank : List Int) (y : Compact) :
      Reachable x → Compact.Parent x rank = some y → Reachable y
  | heir (x : Compact) (s : Str) : Reachable x → Reachable ( Compact.Heir x s)

/-- C7 counterexample: `Heir` with the argument `":"` produces a
reachable identifier whose segment contains the delimiter, so the
delimiter-freedom invariant fails for arbitrary `Heir` arguments. -/
theorem C7_counterexample :
    ¬ ∀ x : Compact, Reachable x → ∀ seg ∈ x.Seq, ':' ∉ seg := by
  intro h
  have hreach : Reachable ( Compact.Heir (NewCompact []) [':']) :=
    .heir _ _ (.parse [])
  have hmem : [':'] ∈ ( Compact.Heir (NewCompact []) [':']).Seq := by decide
  exact h _ hreach [':'] hmem (by decide)

/-- Identifiers reachable from a parsed string by (successful) `Parent`
steps and `Heir` steps whose argument is colon-free. -/
inductive ReachableSafe : Compact → Prop where
  | parse (s : Str) : ReachableSafe (NewCompact s)
  | parent (x : Compact) (rank : List Int) (y : Compact) :
      ReachableSafe x → Compact.Parent x rank = some y → ReachableSafe y
  | heir (x : Compact) (s : Str) : ':' ∉ s → ReachableSafe x →
      ReachableSafe ( Compact.Heir x s)

/-- C7 (amended): along chains of `parse`, `Parent` and `Heir` whose
`Heir` arguments are colon-free, no segment ever contains `:`. -/
theorem C7_delimiter_invariant (x : Compact) (hx : ReachableSafe x) :
    ∀ seg ∈ x.Seq, ':' ∉ seg := by
  induction hx with
  | parse s => exact splitOnColon_no_colon s
  | parent x rank y hx hp ih =>
    intro seg hseg
    simp only [Compact.Parent] at hp
    split at hp
    · cases hp
      rcases List.mem_cons.mp hseg with hseg | hseg
      · simp [hseg]
      · simp at hseg
    · rw [goSliceTo] at hp
      split at hp
      · cases hp
        exact ih seg (List.take_subset _ _ hseg)
      · cases hp
  | heir x s hs hx ih =>
    intro seg hseg
    simp only [Compact.Heir] at hseg
    split at hseg
    · rcases List.mem_cons.mp hseg with hseg | hseg
      · rw [hseg]; exact hs
      · simp at hseg
    · rcases List.mem_append.mp hseg with hseg | hseg
      · exact ih seg hseg
      · rcases List.mem_cons.mp hseg with hseg | hseg
        · rw [hseg]; exact hs
        · simp at hseg

/-- Witness: C7 (amended) on `parse("a:b")`'s head segment. -/
theorem C7_delimiter_invariant_witness :
    ':' ∉ ((NewCompact ['a', ':', 'b']).Seq.headD []) :=
  C7_delimiter_invariant (NewCompact ['a', ':', 'b']) (.parse _) _ (by decide)

/-- C8: `MarshalJSON` emits the JSON string holding the canonical
colon-joined form (the identifier parsed from `""` marshals to `""`),
and `UnmarshalJSON` of that JSON string restores the identifier, for
every identifier constructed by `New`. -/
theorem C8_json_roundtrip :
    (∀ iri : Compact, Compact.MarshalJSON iri = .str ( Compact.String iri)) ∧
    ( Compact.MarshalJSON ((New []).ID) = .str []) ∧
    (∀ s : Str, Compact.MarshalJSON ((New s).ID) = .str s) ∧
    (∀ s : Str, ∀ old : Compact,
      Compact.UnmarshalJSON old ( Compact.MarshalJSON ((New s).ID)) =
        ((New s).ID, none)) := by
  have hm : ∀ s : Str, Compact.MarshalJSON ((New s).ID) = .str s := by
    intro s
    show Compact.MarshalJSON (NewCompact s) = .str s
    unfold Compact.MarshalJSON
    rw [if_neg (show ¬(NewCompact s).Seq.length = 0 from
      fun h => splitOnColon_ne_nil s (List.length_eq_zero.mp h))]
    exact congrArg Json.str (joinColon_splitOnColon s)
  refine ⟨?_, hm [], hm, ?_⟩
  · intro iri
    unfold Compact.MarshalJSON
    split
    · rename_i h
      have hnil : iri.Seq = [] := List.length_eq_zero.mp h
      simp [Compact.String, hnil, joinColon]
    · rfl
  · intro s old
    rw [hm s]
    rfl

/-- Witness: C8 marshal/unmarshal round-trip at `parse("a:b")`. -/
theorem C8_json_roundtrip_witness :
    Compact.UnmarshalJSON (NewCompact ['q'])
      ( Compact.MarshalJSON ((New ['a', ':', 'b']).ID)) =
      ((New ['a', ':', 'b']).ID, none) :=
  C8_json_roundtrip.2.2.2 ['a', ':', 'b'] (NewCompact ['q'])

/-- C9: with at least one segment and a non-negative rank, `Prefix`,
`Suffix` and `Parent` never hit a slice-bounds panic — all three are
total (`isSome`). -/
theorem C9_nonneg_rank_total (iri : Compact) (rank : List Int)
    (h1 : 1 ≤ iri.Seq.length) (hr : 0 ≤ rank.headD 1) :
    ( Compact.Prefix iri rank).isSome = true ∧
    ( Compact.Suffix iri rank).isSome = true ∧
    ( Compact.Parent iri rank).isSome = true := by
  refine ⟨?_, ?_, ?_⟩
  · simp only [ Compact.Prefix]
    split
    · simp
    · split
      · simp
      · rw [goSliceTo, if_pos (by constructor <;> omega)]
        simp
  · simp only [Compact.Suffix]
    split
    · simp
    · rw [goSliceFrom, if_pos (by constructor <;> split <;> omega)]
      simp
  · simp only [Compact.Parent]
    split
    · simp
    · rw [goSliceTo, if_pos (by constructor <;> omega)]
      simp

/-- Witness: C9 at `parse("a")` with rank `0`. -/
theorem C9_nonneg_rank_total_witness :
    ( Compact.Prefix (NewCompact ['a']) [0]).isSome = true ∧
    ( Compact.Suffix (NewCompact ['a']) [0]).isSome = true ∧
    ( Compact.Parent (NewCompact ['a']) [0]).isSome = true :=
  C9_nonneg_rank_total (NewCompact ['a']) [0] (by decide) (by decide)

/-- C10: on input that is not a JSON string, `UnmarshalJSON` leaves the
receiver unchanged and propagates the decoder's error; the receiver is
reassigned only on success. -/
theorem C10_unmarshal_error_atomic (iri : Compact) (b : Json)
    (h : ∀ s : Str, b ≠ .str s) :
    ( Compact.UnmarshalJSON iri b).1 = iri ∧
    ( Compact.UnmarshalJSON iri b).2 = some b := by
  cases b with
  | str s => exact absurd rfl (h s)
  | num n => exact ⟨rfl, rfl⟩
  | boolean v => exact ⟨rfl, rfl⟩
  | null => exact ⟨rfl, rfl⟩

/-- Witness: C10 at receiver `parse("a")` and the JSON number `3`. -/
theorem C10_unmarshal_error_atomic_witness :
    ( Compact.UnmarshalJSON (NewCompact ['a']) (.num 3)).1 = NewCompact ['a'] ∧
    ( Compact.UnmarshalJSON (NewCompact ['a']) (.num 3)).2 = some (.num 3) :=
  C10_unmarshal_error_atomic (NewCompact ['a']) (.num 3)
    (fun _ h => Json.noConfusion h)
